import Mathlib

/-!
# Verification of the image-editor pipeline (`src/app.py`, `src/fonts_config.py`)

A shallow embedding of the pixel-processing core of the batch photo editor.
Images are rectangular grids of 8-bit RGB pixels, modelled as lists of rows of
`RGB` records with `Nat` channels.  Real-valued slider parameters (saturation,
brightness, contrast, hue shift, channel scales) are modelled as rationals:
every arithmetic step the program performs on them (the `colorsys` HLS
conversions, `Image.blend` interpolation, the `point` lookup tables) is exact
rational arithmetic followed by an explicit integer conversion, which we embed
with the conversion the library actually performs (floor / truncation toward
zero / Python round-half-to-even), stated at each definition.
-/

/-- An 8-bit RGB pixel.  Channel values of decoded images lie in `[0,255]`. -/
structure RGB where
  r : ℕ
  g : ℕ
  b : ℕ
deriving DecidableEq, Repr

/-- An RGBA pixel (logo sources carry an alpha channel). -/
structure RGBA where
  r : ℕ
  g : ℕ
  b : ℕ
  a : ℕ
deriving DecidableEq, Repr

/-- A full-colour image: a list of rows, each row a list of pixels. -/
structure Image where
  rows : List (List RGB)
deriving DecidableEq, Repr

/-- An RGBA image (the decoded logo, `logo.convert("RGBA")`). -/
structure RGBAImage where
  rows : List (List RGBA)
deriving DecidableEq, Repr

def Image.height (img : Image) : ℕ := img.rows.length

def Image.width (img : Image) : ℕ := ((img.rows.head?).map List.length).getD 0

/-- Pixel access `pixels[x, y]`; out-of-range reads give black (never used on
valid coordinates). -/
def Image.pix (img : Image) (x y : ℕ) : RGB := (img.rows.getD y []).getD x ⟨0, 0, 0⟩

def RGBAImage.height (img : RGBAImage) : ℕ := img.rows.length

def RGBAImage.width (img : RGBAImage) : ℕ := ((img.rows.head?).map List.length).getD 0

def RGBAImage.pix (img : RGBAImage) (x y : ℕ) : RGBA :=
  (img.rows.getD y []).getD x ⟨0, 0, 0, 0⟩

/-- Apply a function to every pixel (PIL per-pixel operations). -/
def mapPixels (f : RGB → RGB) (img : Image) : Image := ⟨img.rows.map (List.map f)⟩

/-- Combine two images pixelwise (`Image.blend` of two images of equal size). -/
def zipPixels (f : RGB → RGB → RGB) (a b : Image) : Image :=
  ⟨List.zipWith (List.zipWith f) a.rows b.rows⟩

/-- A decoded image: rectangular grid with all channels in `[0,255]`
(`Image.open(...).convert("RGB")` always yields this). -/
def RGB.Valid (p : RGB) : Prop := p.r ≤ 255 ∧ p.g ≤ 255 ∧ p.b ≤ 255

instance : DecidablePred RGB.Valid := fun p => by unfold RGB.Valid; infer_instance

def Image.Valid (img : Image) : Prop :=
  ∀ row ∈ img.rows, ∀ p ∈ row, p.Valid

instance : DecidablePred Image.Valid := fun img => by unfold Image.Valid; infer_instance

/-- Python `int(q)` on a nonnegative float: truncation toward zero, which on the
values of this development (all `> -1`) coincides with `⌊q⌋.toNat`. -/
def pyInt (q : ℚ) : ℕ := (⌊q⌋).toNat

/-- Python `round` (used by `Image.point` on float lookup tables):
round half to even. -/
def pyRound (q : ℚ) : ℤ :=
  if Int.fract q < 1/2 then ⌊q⌋
  else if 1/2 < Int.fract q then ⌊q⌋ + 1
  else if ⌊q⌋ % 2 = 0 then ⌊q⌋ else ⌊q⌋ + 1

/-- Pillow's `CLIP8`: clamp an integer into `[0,255]` when storing to a UINT8
plane. -/
def clip8 (z : ℤ) : ℕ := if z ≤ 0 then 0 else if (255 : ℤ) ≤ z then 255 else z.toNat

/-- Pillow RGB→L luminance, ITU-R 601-2 as in `convert.c`:
`L24(rgb) >> 16` with `L24 = 19595·R + 38470·G + 7471·B`. -/
def lum (p : RGB) : ℕ := (p.r * 19595 + p.g * 38470 + p.b * 7471) / 65536

/-- `image.convert("L").convert("RGB")`: replace every pixel by its luminance
replicated into three equal channels. -/
def grayRGB (img : Image) : Image := mapPixels (fun p => ⟨lum p, lum p, lum p⟩) img

/-- One channel of Pillow's `ImagingBlend` interpolation
`out = (UINT8)(in1 + alpha*(in2-in1))` (for `alpha` outside `[0,1]` the
extrapolation branch clips explicitly). -/
def blendChan (alpha : ℚ) (v1 v2 : ℕ) : ℕ :=
  let t : ℚ := (v1 : ℚ) + alpha * ((v2 : ℚ) - (v1 : ℚ))
  if 0 ≤ alpha ∧ alpha ≤ 1 then pyInt t
  else if t ≤ 0 then 0 else if 255 ≤ t then 255 else pyInt t

/-- `Image.blend(im1, im2, alpha)` (Pillow `ImagingBlend`): `alpha = 0` returns
a copy of `im1`, `alpha = 1` a copy of `im2`, otherwise the pixelwise
interpolation. -/
def blendImage (im1 im2 : Image) (alpha : ℚ) : Image :=
  if alpha = 0 then im1
  else if alpha = 1 then im2
  else zipPixels
    (fun p q => ⟨blendChan alpha p.r q.r, blendChan alpha p.g q.g, blendChan alpha p.b q.b⟩)
    im1 im2

/-- `ImageEnhance.Color(image).enhance(f)`: blend between the grayscale
degenerate and the image. -/
def enhanceColor (img : Image) (factor : ℚ) : Image := blendImage (grayRGB img) img factor

/-- `ImageEnhance.Brightness(image).enhance(f)`: blend between black and the
image. -/
def enhanceBrightness (img : Image) (factor : ℚ) : Image :=
  blendImage (mapPixels (fun _ => ⟨0, 0, 0⟩) img) img factor

/-- Sum of the luminances of all pixels (numerator of `ImageStat.Stat.mean`). -/
def lumSum (img : Image) : ℕ := (img.rows.map (fun row => (row.map lum).sum)).sum

/-- Number of pixels (denominator of `ImageStat.Stat.mean`). -/
def pixelCount (img : Image) : ℕ := (img.rows.map List.length).sum

/-- `ImageEnhance.Contrast`'s reference level:
`int(ImageStat.Stat(image.convert("L")).mean[0] + 0.5)`. -/
def contrastMean (img : Image) : ℕ :=
  pyInt ((lumSum img : ℚ) / (pixelCount img : ℚ) + 1/2)

/-- `ImageEnhance.Contrast(image).enhance(f)`: blend between a uniform mid-gray
image at the mean luminance and the image. -/
def enhanceContrast (img : Image) (factor : ℚ) : Image :=
  blendImage (mapPixels (fun _ => ⟨contrastMean img, contrastMean img, contrastMean img⟩) img)
    img factor

/-- The Enhancer stage (spec §4.1): saturation, brightness, contrast in this
fixed order — `app.py` lines 12–14. -/
def enhance (img : Image) (saturation brightness contrast : ℚ) : Image :=
  enhanceContrast (enhanceBrightness (enhanceColor img saturation) brightness) contrast

/-- `ImageOps.invert`: each channel `v ↦ 255 - v`. -/
def invertImage (img : Image) : Image :=
  mapPixels (fun p => ⟨255 - p.r, 255 - p.g, 255 - p.b⟩) img

/-- The sepia palette built at `app.py` lines 21–23: `for i in range(255)`
supplies entries `0..254` as `(i*240//255, i*200//255, i*145//255)`
(`int` truncation); the remaining palette entry (index 255) is never written
and stays at the zero-initialised default `(0,0,0)`
(Pillow's palette buffer is zero-filled). -/
def sepiaLookup (i : ℕ) : RGB :=
  if i < 255 then ⟨i * 240 / 255, i * 200 / 255, i * 145 / 255⟩ else ⟨0, 0, 0⟩

/-- The Sepia branch: `convert("L")`, `putpalette(sepia)`, `convert("RGB")` —
every pixel becomes the palette entry at its luminance. -/
def sepiaImage (img : Image) : Image := mapPixels (fun p => sepiaLookup (lum p)) img

/-- The Effect Filter stage, `app.py` lines 16–26: the `if/elif` chain on the
effect string; any unmatched string (including `"None"`) leaves the image
untouched. -/
def applyEffect (img : Image) (effect : String) : Image :=
  if effect = "Black & White" then grayRGB img
  else if effect = "Invert" then invertImage img
  else if effect = "Sepia" then sepiaImage img
  else img

/-- `colorsys.rgb_to_hls` (CPython `Lib/colorsys.py`), exact rational
arithmetic; Python `% 1.0` is `Int.fract`. -/
def rgb_to_hls (r g b : ℚ) : ℚ × ℚ × ℚ :=
  let maxc := max r (max g b)
  let minc := min r (min g b)
  let sumc := maxc + minc
  let rangec := maxc - minc
  let l := sumc / 2
  if minc = maxc then (0, l, 0)
  else
    let s := if l ≤ 1/2 then rangec / sumc else rangec / (2 - sumc)
    let rc := (maxc - r) / rangec
    let gc := (maxc - g) / rangec
    let bc := (maxc - b) / rangec
    let h := if r = maxc then bc - gc
             else if g = maxc then 2 + rc - bc
             else 4 + gc - rc
    (Int.fract (h / 6), l, s)

/-- `colorsys._v(m1, m2, hue)`. -/
def hls_v (m1 m2 hue : ℚ) : ℚ :=
  let hue := Int.fract hue
  if hue < 1/6 then m1 + (m2 - m1) * hue * 6
  else if hue < 1/2 then m2
  else if hue < 2/3 then m1 + (m2 - m1) * (2/3 - hue) * 6
  else m1

/-- `colorsys.hls_to_rgb`. -/
def hls_to_rgb (h l s : ℚ) : ℚ × ℚ × ℚ :=
  if s = 0 then (l, l, l)
  else
    let m2 := if l ≤ 1/2 then l * (1 + s) else l + s - l * s
    let m1 := 2 * l - m2
    (hls_v m1 m2 (h + 1/3), hls_v m1 m2 h, hls_v m1 m2 (h - 1/3))

/-- The per-pixel body of `adjust_hue` (`app.py` lines 40–44): RGB normalised
to `0–1`, `h = (h + shift) % 1.0`, back to RGB, then
`(int(r*255), int(g*255), int(b*255))` — `int` truncation, no rounding and no
explicit clamp. -/
def hueShiftPixel (shift : ℚ) (p : RGB) : RGB :=
  let hls := rgb_to_hls ((p.r : ℚ) / 255) ((p.g : ℚ) / 255) ((p.b : ℚ) / 255)
  let h := Int.fract (hls.1 + shift)
  let rgb := hls_to_rgb h hls.2.1 hls.2.2
  ⟨pyInt (rgb.1 * 255), pyInt (rgb.2.1 * 255), pyInt (rgb.2.2 * 255)⟩

/-- `adjust_hue(image, shift)` (`app.py` lines 34–45): the per-pixel hue
rotation applied to every pixel of the (RGB) image. -/
def adjust_hue (img : Image) (shift : ℚ) : Image := mapPixels (hueShiftPixel shift) img

/-- One entry of the `point` lookup table in `adjust_color_balance`
(`app.py` lines 50–52): `min(255, i * scale)`, which `Image.point` rounds
(Python `round`, half to even) and Pillow's `getlist` clips to `[0,255]`. -/
def balancePoint (scale : ℚ) (i : ℕ) : ℕ := clip8 (pyRound (min 255 ((i : ℚ) * scale)))

/-- `adjust_color_balance(image, r_scale, g_scale, b_scale)`
(`app.py` lines 47–53): split, `point` each channel plane, merge. -/
def adjust_color_balance (img : Image) (r_scale g_scale b_scale : ℚ) : Image :=
  mapPixels
    (fun p => ⟨balancePoint r_scale p.r, balancePoint g_scale p.g, balancePoint b_scale p.b⟩)
    img

/-- `apply_edits` (`app.py` lines 10–32): Enhancer, Effect Filter, guarded Hue
Shifter (`if hue_shift != 0`), Color Balancer. -/
def apply_edits (image : Image) (saturation brightness contrast : ℚ) (effect : String)
    (hue_shift r_scale g_scale b_scale : ℚ) : Image :=
  let image := enhance image saturation brightness contrast
  let image := applyEffect image effect
  let image := if hue_shift ≠ 0 then adjust_hue image hue_shift else image
  adjust_color_balance image r_scale g_scale b_scale

/-- The resized logo's size, `app.py` lines 60–61:
`logo_w = int(image.width * scale)`;
`logo_h = int(logo_w * logo.size[1] / logo.size[0])` (float division, `int`
truncation). -/
def logoResizedSize (baseW logoW logoH : ℕ) (scale : ℚ) : ℕ × ℕ :=
  let lw := pyInt ((baseW : ℚ) * scale)
  (lw, pyInt ((lw : ℚ) * (logoH : ℚ) / (logoW : ℚ)))

/-- Model of PIL `Image.resize((w, h))`: the output grid has exactly the
requested width `w` and height `h`; pixel content is modelled by
nearest-neighbour sampling (the library's resampling filter is outside this
repository, and no claim depends on resampled pixel values — only on the
output geometry). -/
def resizeRGBA (img : RGBAImage) (w h : ℕ) : RGBAImage :=
  ⟨(List.range h).map (fun j =>
    (List.range w).map (fun i => img.pix (i * img.width / w) (j * img.height / h)))⟩

/-- Pillow's `MULDIV255(a, b)`: `tmp = a*b + 128; ((tmp >> 8) + tmp) >> 8`. -/
def muldiv255 (a b : ℕ) : ℕ := ((a * b + 128) / 256 + (a * b + 128)) / 256

/-- One channel of Pillow's masked paste (`paste_mask_RGBA` + `BLEND`): mask
alpha 255 copies the source, 0 keeps the destination, otherwise
`MULDIV255(in1, 255-a) + MULDIV255(in2, a)`. -/
def pasteChan (a v1 v2 : ℕ) : ℕ :=
  if a = 255 then v2 else if a = 0 then v1 else muldiv255 v1 (255 - a) + muldiv255 v2 a

/-- `image.paste(logo_resized, pos, logo_resized)`: alpha-composite the RGBA
overlay onto the base at integer offset `pos`, silently clipping anything
off-canvas (Pillow's paste clips to the destination bounds). -/
def pasteImage (base : Image) (overlay : RGBAImage) (pos : ℤ × ℤ) : Image :=
  ⟨base.rows.mapIdx (fun y row => row.mapIdx (fun x pxl =>
    let i : ℤ := (x : ℤ) - pos.1
    let j : ℤ := (y : ℤ) - pos.2
    if 0 ≤ i ∧ i < (overlay.width : ℤ) ∧ 0 ≤ j ∧ j < (overlay.height : ℤ) then
      let q := overlay.pix i.toNat j.toNat
      ⟨pasteChan q.a pxl.r q.r, pasteChan q.a pxl.g q.g, pasteChan q.a pxl.b q.b⟩
    else pxl))⟩

/-- `add_logo(image, logo_file, scale, pos)` (`app.py` lines 55–64): no-op
without a logo or position; otherwise resize the logo to
`logoResizedSize` and alpha-paste it at `pos`. -/
def add_logo (image : Image) (logo_file : Option RGBAImage) (scale : ℚ)
    (pos : Option (ℤ × ℤ)) : Image :=
  match logo_file, pos with
  | some logo, some p =>
    let sz := logoResizedSize image.width logo.width logo.height scale
    pasteImage image (resizeRGBA logo sz.1 sz.2) p
  | _, _ => image

/-- Model of `ImageDraw.text`: the glyph rasterizer lives in PIL and the font
files, outside this repository; we model drawing as painting the measured
`text_w × text_h` bounding box at the anchor in the fill colour, in place on
the working copy.  Every claim about the caption renderer depends only on the
anchor position and on drawing being an in-place, dimension-preserving pixel
update. -/
def drawText (image : Image) (xy : ℤ × ℤ) (text_w text_h : ℕ) (color : RGB) : Image :=
  ⟨image.rows.mapIdx (fun y row => row.mapIdx (fun x pxl =>
    if xy.1 ≤ (x : ℤ) ∧ (x : ℤ) < xy.1 + (text_w : ℤ) ∧
       xy.2 ≤ (y : ℤ) ∧ (y : ℤ) < xy.2 + (text_h : ℤ)
    then color else pxl))⟩

/-- Python's `str.lower()` as used on the ASCII position strings
(`position.lower()`): lower-case every character. -/
def pyLower (s : String) : String := ⟨s.data.map Char.toLower⟩

/-- `add_lower_third(image, text, font_name, font_size, color, position)`
(`app.py` lines 66–95).  The measured text box `(text_w, text_h)` comes from
`draw.textbbox`/`font.getsize` (external font metrics), so it is an input
here.  The anchor arithmetic is Python's: `//` is floor division
(`Int.fdiv`). -/
def add_lower_third (image : Image) (text : String) (text_w text_h : ℕ) (color : RGB)
    (position : String) : Image :=
  if text = "" then image
  else
    let img_w : ℤ := image.width
    let img_h : ℤ := image.height
    let margin : ℤ := 20
    let xy : ℤ × ℤ :=
      if pyLower position = "bottom" then
        (Int.fdiv (img_w - text_w) 2, img_h - text_h - margin)
      else if pyLower position = "top" then (Int.fdiv (img_w - text_w) 2, margin)
      else if pyLower position = "left" then (margin, img_h - text_h - margin)
      else if pyLower position = "right" then
        (img_w - text_w - margin, img_h - text_h - margin)
      else (Int.fdiv (img_w - text_w) 2, img_h - text_h - margin)
    drawText image xy text_w text_h color

/-- The full per-image pipeline of `process_batch`'s loop body
(`app.py` lines 106–109): `apply_edits`, then `add_logo`, then
`add_lower_third`. -/
def pipelineOne (img : Image) (saturation brightness contrast : ℚ) (effect : String)
    (hue_shift r_scale g_scale b_scale : ℚ) (logo_file : Option RGBAImage)
    (logo_scale : ℚ) (logo_pos : Option (ℤ × ℤ)) (lower_text : String)
    (text_w text_h : ℕ) (font_color : RGB) (lower_pos : String) : Image :=
  add_lower_third
    (add_logo (apply_edits img saturation brightness contrast effect hue_shift
        r_scale g_scale b_scale)
      logo_file logo_scale logo_pos)
    lower_text text_w text_h font_color lower_pos

/-- A batch input file: `some img` when `Image.open(file).convert("RGB")`
decodes, `none` when the file is malformed/undecodable (in which case
`Image.open` raises). -/
def decodeFile : Option Image → Except Unit Image
  | some img => .ok img
  | none => .error ()

/-- The loop of `process_batch` (`app.py` lines 104–114), with the running
index `i`.  The loop body decodes, runs the pipeline and appends the entry
`edited_{i+1}.jpg` to the zip; an exception raised by a bad file propagates
out of the `with zipfile.ZipFile(...)` block, so the whole call fails and
every entry written so far is discarded with the buffer — modelled by the
`Except` monad. -/
def batchLoop (saturation brightness contrast : ℚ) (effect : String)
    (hue_shift r_scale g_scale b_scale : ℚ) (logo_file : Option RGBAImage)
    (logo_scale : ℚ) (logo_pos : Option (ℤ × ℤ)) (lower_text : String)
    (text_w text_h : ℕ) (font_color : RGB) (lower_pos : String) :
    List (Option Image) → ℕ → Except Unit (List (String × Image))
  | [], _ => .ok []
  | file :: rest, i => do
    let img ← decodeFile file
    let out := pipelineOne img saturation brightness contrast effect hue_shift
      r_scale g_scale b_scale logo_file logo_scale logo_pos lower_text
      text_w text_h font_color lower_pos
    let tail ← batchLoop saturation brightness contrast effect hue_shift r_scale
      g_scale b_scale logo_file logo_scale logo_pos lower_text text_w text_h
      font_color lower_pos rest (i + 1)
    .ok (("edited_" ++ toString i ++ ".jpg", out) :: tail)

/-- `process_batch` (`app.py` lines 97–117): run the pipeline over every
uploaded file and collect the named JPEG entries of the zip archive (JPEG
encoding itself is external; entries carry the processed image). -/
def process_batch (images : List (Option Image)) (saturation brightness contrast : ℚ)
    (effect : String) (hue_shift r_scale g_scale b_scale : ℚ)
    (logo_file : Option RGBAImage) (logo_scale : ℚ) (logo_pos : Option (ℤ × ℤ))
    (lower_text : String) (text_w text_h : ℕ) (font_color : RGB)
    (lower_pos : String) : Except Unit (List (String × Image)) :=
  batchLoop saturation brightness contrast effect hue_shift r_scale g_scale b_scale
    logo_file logo_scale logo_pos lower_text text_w text_h font_color lower_pos
    images 1

/-- The preview downscale (`app.py` lines 158–164): images wider than 1000px
are shrunk by `ratio = 1000 / width`, `new_size = (int(w*ratio), int(h*ratio))`;
narrower images are previewed at full size. -/
def previewSize (w h : ℕ) : ℕ × ℕ :=
  if 1000 < w then
    (pyInt ((w : ℚ) * (1000 / (w : ℚ))), pyInt ((h : ℚ) * (1000 / (w : ℚ))))
  else (w, h)

/-- `app.py` lines 180–185 and 201: the logo position handed to
`process_batch` for the full-resolution export is exactly the object's
`(int(obj["left"]), int(obj["top"]))` read off the preview canvas — the
module-level code performs no preview-to-export conversion on it. -/
def exportLogoPos (dragLeft dragTop : ℤ) : ℤ × ℤ := (dragLeft, dragTop)

/-- Modelled from the spec: the preview-to-export unit conversion the spec
requires of the Logo Compositor's input handling ("it must be rescaled by
`exportWidth/previewWidth` before application to the full-resolution
export"); this step has no counterpart in `src/app.py`. -/
def specScaledDragPos (dragPos : ℤ × ℤ) (exportW previewW : ℕ) : ℤ × ℤ :=
  (Int.fdiv (dragPos.1 * exportW) previewW, Int.fdiv (dragPos.2 * exportW) previewW)

/-- Modelled from the spec: the sepia lookup the spec prescribes for every
luminance level `i ∈ [0,255]`: `R=i·240/255, G=i·200/255, B=i·145/255`
(integer truncation). -/
def sepiaSpecLookup (i : ℕ) : RGB := ⟨i * 240 / 255, i * 200 / 255, i * 145 / 255⟩

/-- The hue-shift per-pixel transform as the claim words it (claim C4 /
spec §4.3): normalise, convert to HLS, add the shift to hue and wrap modulo
1.0, convert back, then produce each output channel from the claimed integer
conversion `conv` (the claim says round-to-nearest; the code truncates) and
clamp to `[0,255]`. -/
def hueShiftPixelSpec (conv : ℚ → ℤ) (shift : ℚ) (p : RGB) : RGB :=
  let hls := rgb_to_hls ((p.r : ℚ) / 255) ((p.g : ℚ) / 255) ((p.b : ℚ) / 255)
  let h := Int.fract (hls.1 + shift)
  let rgb := hls_to_rgb h hls.2.1 hls.2.2
  ⟨clip8 (conv (rgb.1 * 255)), clip8 (conv (rgb.2.1 * 255)), clip8 (conv (rgb.2.2 * 255))⟩

/-- Round to nearest integer (the claim's reading), halves up. -/
def roundNearest (q : ℚ) : ℤ := ⌊q + 1/2⌋

/-- Truncation toward zero on nonnegative values (the code's `int(...)`). -/
def truncNonneg (q : ℚ) : ℤ := ⌊q⌋

/-- A 1×1 image. -/
def img1x1 (p : RGB) : Image := ⟨[[p]]⟩

/-- An 8×8 uniform white image. -/
def white8 : Image := ⟨List.replicate 8 (List.replicate 8 ⟨255, 255, 255⟩)⟩

/-- A 4×4 fully opaque uniform blue logo. -/
def blueLogo4 : RGBAImage := ⟨List.replicate 4 (List.replicate 4 ⟨0, 0, 255, 255⟩)⟩

/-! ## HLS round-trip algebra

`colorsys`'s RGB↔HLS conversion is exact on rationals.  The lemmas below
evaluate `hls_v` on each of its four hue intervals and compute `hls_to_rgb`'s
`m1, m2` as the min/max of the original channels; together they give the
round-trip theorem `hls_round_trip` used for the identity claims. -/

theorem fract_eq_self_of (q : ℚ) (h0 : 0 ≤ q) (h1 : q < 1) : Int.fract q = q :=
  Int.fract_eq_self.mpr ⟨h0, h1⟩

theorem fract_eq_add_one_of (q : ℚ) (h0 : -1 ≤ q) (h1 : q < 0) : Int.fract q = q + 1 := by
  have h2 : Int.fract (q + (1 : ℤ)) = Int.fract q := Int.fract_add_int q 1
  have h3 : Int.fract (q + (1 : ℤ)) = q + 1 := by
    push_cast
    exact fract_eq_self_of _ (by linarith) (by linarith)
  rw [← h2, h3]

theorem hls_v_fract (m1 m2 hue : ℚ) : hls_v m1 m2 (Int.fract hue) = hls_v m1 m2 hue := by
  simp only [hls_v, Int.fract_fract]

theorem hls_v_first (m1 m2 hue : ℚ) (h0 : 0 ≤ hue) (h1 : hue < 1/6) :
    hls_v m1 m2 hue = m1 + (m2 - m1) * hue * 6 := by
  simp only [hls_v]
  rw [fract_eq_self_of hue h0 (by linarith), if_pos h1]

theorem hls_v_second (m1 m2 hue : ℚ) (h0 : 1/6 ≤ hue) (h1 : hue < 1/2) :
    hls_v m1 m2 hue = m2 := by
  simp only [hls_v]
  rw [fract_eq_self_of hue (by linarith) (by linarith), if_neg (by linarith), if_pos h1]

theorem hls_v_third (m1 m2 hue : ℚ) (h0 : 1/2 ≤ hue) (h1 : hue < 2/3) :
    hls_v m1 m2 hue = m1 + (m2 - m1) * (2/3 - hue) * 6 := by
  simp only [hls_v]
  rw [fract_eq_self_of hue (by linarith) (by linarith), if_neg (by linarith),
    if_neg (by linarith), if_pos h1]

theorem hls_v_fourth (m1 m2 hue : ℚ) (h0 : 2/3 ≤ hue) (h1 : hue < 1) :
    hls_v m1 m2 hue = m1 := by
  simp only [hls_v]
  rw [fract_eq_self_of hue (by linarith) h1, if_neg (by linarith), if_neg (by linarith),
    if_neg (by linarith)]

theorem hls_to_rgb_minmax (hq m M : ℚ) (h0 : 0 ≤ m) (hmM : m < M) (hM : M ≤ 1) :
    hls_to_rgb hq ((M + m) / 2)
      (if (M + m) / 2 ≤ 1/2 then (M - m) / (M + m) else (M - m) / (2 - (M + m))) =
      (hls_v m M (hq + 1/3), hls_v m M hq, hls_v m M (hq - 1/3)) := by
  by_cases hl : (M + m) / 2 ≤ 1/2
  · have hsum : 0 < M + m := by linarith
    have hs : (0 : ℚ) < (M - m) / (M + m) := div_pos (by linarith) hsum
    rw [if_pos hl]
    simp only [hls_to_rgb, if_neg (ne_of_gt hs), if_pos hl]
    have hm2 : (M + m) / 2 * (1 + (M - m) / (M + m)) = M := by
      field_simp
      ring
    rw [hm2]
    have hm1 : 2 * ((M + m) / 2) - M = m := by ring
    rw [hm1]
  · have hsum : 0 < 2 - (M + m) := by
      have : M + m < 2 := by linarith
      linarith
    have hs : (0 : ℚ) < (M - m) / (2 - (M + m)) := div_pos (by linarith) hsum
    rw [if_neg hl]
    simp only [hls_to_rgb, if_neg (ne_of_gt hs), if_neg hl]
    have hm2 : (M + m) / 2 + (M - m) / (2 - (M + m)) -
        (M + m) / 2 * ((M - m) / (2 - (M + m))) = M := by
      field_simp
      ring
    rw [hm2]
    have hm1 : 2 * ((M + m) / 2) - M = m := by ring
    rw [hm1]

theorem rgb_to_hls_case_r (r g b : ℚ) (hg : g ≤ r) (hb : b ≤ r) (hne : min g b < r) :
    rgb_to_hls r g b =
      (Int.fract (((r - b) / (r - min g b) - (r - g) / (r - min g b)) / 6),
        (r + min g b) / 2,
        if (r + min g b) / 2 ≤ 1/2 then (r - min g b) / (r + min g b)
        else (r - min g b) / (2 - (r + min g b))) := by
  have hmax : max r (max g b) = r := max_eq_left (max_le hg hb)
  have hmin : min r (min g b) = min g b := min_eq_right (le_trans (min_le_left g b) hg)
  simp only [rgb_to_hls, hmax, hmin]
  rw [if_neg (ne_of_lt hne)]
  simp

theorem rgb_to_hls_case_g (r g b : ℚ) (hr : r < g) (hb : b ≤ g) (hne : min r b < g) :
    rgb_to_hls r g b =
      (Int.fract ((2 + (g - r) / (g - min r b) - (g - b) / (g - min r b)) / 6),
        (g + min r b) / 2,
        if (g + min r b) / 2 ≤ 1/2 then (g - min r b) / (g + min r b)
        else (g - min r b) / (2 - (g + min r b))) := by
  have hmax : max r (max g b) = g := by
    rw [max_eq_left hb]
    exact max_eq_right hr.le
  have hmin : min r (min g b) = min r b := by rw [min_eq_right hb]
  simp only [rgb_to_hls, hmax, hmin]
  rw [if_neg (ne_of_lt hne)]
  simp [ne_of_lt hr]

theorem rgb_to_hls_case_b (r g b : ℚ) (hr : r < b) (hg : g < b) (hne : min r g < b) :
    rgb_to_hls r g b =
      (Int.fract ((4 + (b - g) / (b - min r g) - (b - r) / (b - min r g)) / 6),
        (b + min r g) / 2,
        if (b + min r g) / 2 ≤ 1/2 then (b - min r g) / (b + min r g)
        else (b - min r g) / (2 - (b + min r g))) := by
  have hmax : max r (max g b) = b := by
    rw [max_eq_right hg.le]
    exact max_eq_right hr.le
  have hmin : min r (min g b) = min r g := by rw [min_eq_left hg.le]
  simp only [rgb_to_hls, hmax, hmin]
  rw [if_neg (ne_of_lt hne), if_neg (ne_of_lt hr), if_neg (ne_of_lt hg)]

theorem round_trip_rmax (r g b : ℚ) (hg : g ≤ r) (hb : b ≤ r) (hne : min g b < r) :
    (hls_v (min g b) r
        (Int.fract (((r - b) / (r - min g b) - (r - g) / (r - min g b)) / 6) + 1/3),
      hls_v (min g b) r
        (Int.fract (((r - b) / (r - min g b) - (r - g) / (r - min g b)) / 6)),
      hls_v (min g b) r
        (Int.fract (((r - b) / (r - min g b) - (r - g) / (r - min g b)) / 6) - 1/3)) =
      (r, g, b) := by
  have hD : (0 : ℚ) < r - min g b := by linarith
  have harg : ((r - b) / (r - min g b) - (r - g) / (r - min g b)) / 6 =
      (g - b) / (6 * (r - min g b)) := by
    rw [div_sub_div_same]
    have hnum : r - b - (r - g) = g - b := by ring
    rw [hnum, div_div, mul_comm (r - min g b) 6]
  rw [harg]
  by_cases hbg : b ≤ g
  · rw [min_eq_right hbg] at hne ⊢
    have hd : (0 : ℚ) < r - b := by linarith
    have ht0 : 0 ≤ (g - b) / (6 * (r - b)) := div_nonneg (by linarith) (by linarith)
    have ht6 : (g - b) / (6 * (r - b)) ≤ 1/6 := by
      rw [div_le_iff (by linarith)]
      linarith
    rw [fract_eq_self_of _ ht0 (by linarith)]
    simp only [Prod.mk.injEq]
    refine ⟨?_, ?_, ?_⟩
    · rcases lt_or_eq_of_le ht6 with h6 | h6
      · rw [hls_v_second _ _ _ (by linarith) (by linarith)]
      · rw [h6, hls_v_third _ _ _ (by norm_num) (by norm_num)]
        ring
    · rcases lt_or_eq_of_le ht6 with h6 | h6
      · rw [hls_v_first _ _ _ ht0 h6]
        field_simp
        ring
      · rw [h6, hls_v_second _ _ _ (by norm_num) (by norm_num)]
        rw [div_eq_div_iff (by linarith) (by norm_num)] at h6
        linarith
    · rw [← hls_v_fract]
      have hfr : Int.fract ((g - b) / (6 * (r - b)) - 1/3) =
          (g - b) / (6 * (r - b)) + 2/3 := by
        rw [fract_eq_add_one_of _ (by linarith) (by linarith)]
        ring
      rw [hfr, hls_v_fourth _ _ _ (by linarith) (by linarith)]
  · push_neg at hbg
    rw [min_eq_left hbg.le] at hne ⊢
    have hd : (0 : ℚ) < r - g := by linarith
    have htneg : (g - b) / (6 * (r - g)) < 0 :=
      div_neg_of_neg_of_pos (by linarith) (by linarith)
    have ht6 : -(1/6) ≤ (g - b) / (6 * (r - g)) := by
      rw [le_div_iff (by linarith)]
      linarith
    rw [fract_eq_add_one_of _ (by linarith) htneg]
    simp only [Prod.mk.injEq]
    refine ⟨?_, ?_, ?_⟩
    · rw [← hls_v_fract]
      have h2 : Int.fract ((g - b) / (6 * (r - g)) + 1 + 1/3) =
          (g - b) / (6 * (r - g)) + 1/3 := by
        have harg2 : (g - b) / (6 * (r - g)) + 1 + 1/3 =
            (g - b) / (6 * (r - g)) + 1/3 + ((1 : ℤ) : ℚ) := by
          push_cast
          ring
        rw [harg2, Int.fract_add_int]
        exact fract_eq_self_of _ (by linarith) (by linarith)
      rw [h2, hls_v_second _ _ _ (by linarith) (by linarith)]
    · rw [← hls_v_fract]
      have h2 : Int.fract ((g - b) / (6 * (r - g)) + 1) = (g - b) / (6 * (r - g)) + 1 :=
        fract_eq_self_of _ (by linarith) (by linarith)
      rw [h2, hls_v_fourth _ _ _ (by linarith) (by linarith)]
    · rw [← hls_v_fract]
      have h2 : Int.fract ((g - b) / (6 * (r - g)) + 1 - 1/3) =
          (g - b) / (6 * (r - g)) + 2/3 := by
        rw [fract_eq_self_of _ (by linarith) (by linarith)]
        ring
      rw [h2, hls_v_third _ _ _ (by linarith) (by linarith)]
      field_simp
      ring

theorem round_trip_gmax (r g b : ℚ) (hr : r < g) (hb : b ≤ g) (hne : min r b < g) :
    (hls_v (min r b) g
        (Int.fract ((2 + (g - r) / (g - min r b) - (g - b) / (g - min r b)) / 6) + 1/3),
      hls_v (min r b) g
        (Int.fract ((2 + (g - r) / (g - min r b) - (g - b) / (g - min r b)) / 6)),
      hls_v (min r b) g
        (Int.fract ((2 + (g - r) / (g - min r b) - (g - b) / (g - min r b)) / 6) - 1/3)) =
      (r, g, b) := by
  have hD : (0 : ℚ) < g - min r b := by linarith
  have hnum : (g - r) / (g - min r b) - (g - b) / (g - min r b) =
      (b - r) / (g - min r b) := by
    rw [div_sub_div_same]
    ring_nf
  have harg : 2 + (g - r) / (g - min r b) - (g - b) / (g - min r b) =
      2 + (b - r) / (g - min r b) := by
    linarith [hnum]
  rw [harg]
  by_cases hrb : r ≤ b
  · rw [min_eq_left hrb] at hne ⊢
    have hd : (0 : ℚ) < g - r := by linarith
    have hu0 : 0 ≤ (b - r) / (g - r) := div_nonneg (by linarith) hd.le
    have hu1 : (b - r) / (g - r) ≤ 1 := by
      rw [div_le_one hd]
      linarith
    rw [fract_eq_self_of _ (by linarith) (by linarith)]
    simp only [Prod.mk.injEq]
    refine ⟨?_, ?_, ?_⟩
    · have e1 : (2 + (b - r) / (g - r)) / 6 + 1/3 = (4 + (b - r) / (g - r)) / 6 := by
        ring
      rw [e1, hls_v_fourth _ _ _ (by linarith) (by linarith)]
    · rcases lt_or_eq_of_le hu1 with h1 | h1
      · rw [hls_v_second _ _ _ (by linarith) (by linarith)]
      · rw [h1, hls_v_third _ _ _ (by norm_num) (by norm_num)]
        ring
    · have e3 : (2 + (b - r) / (g - r)) / 6 - 1/3 = (b - r) / (g - r) / 6 := by
        ring
      rw [e3]
      rcases lt_or_eq_of_le hu1 with h1 | h1
      · rw [hls_v_first _ _ _ (by linarith) (by linarith)]
        field_simp
        ring
      · rw [h1, hls_v_second _ _ _ (by norm_num) (by norm_num)]
        field_simp [hd.ne'] at h1
        linarith
  · push_neg at hrb
    rw [min_eq_right hrb.le] at hne ⊢
    have hd : (0 : ℚ) < g - b := by linarith
    have hun : (b - r) / (g - b) < 0 := div_neg_of_neg_of_pos (by linarith) hd
    have hu2 : -1 ≤ (b - r) / (g - b) := by
      rw [le_div_iff hd]
      linarith
    rw [fract_eq_self_of _ (by linarith) (by linarith)]
    simp only [Prod.mk.injEq]
    refine ⟨?_, ?_, ?_⟩
    · have e1 : (2 + (b - r) / (g - b)) / 6 + 1/3 = (4 + (b - r) / (g - b)) / 6 := by
        ring
      rw [e1, hls_v_third _ _ _ (by linarith) (by linarith)]
      field_simp
      ring
    · rw [hls_v_second _ _ _ (by linarith) (by linarith)]
    · have e3 : (2 + (b - r) / (g - b)) / 6 - 1/3 = (b - r) / (g - b) / 6 := by
        ring
      rw [e3, ← hls_v_fract]
      have hfr3 : Int.fract ((b - r) / (g - b) / 6) = (b - r) / (g - b) / 6 + 1 :=
        fract_eq_add_one_of _ (by linarith) (by linarith)
      rw [hfr3, hls_v_fourth _ _ _ (by linarith) (by linarith)]

theorem round_trip_bmax (r g b : ℚ) (hr : r < b) (hg : g < b) (hne : min r g < b) :
    (hls_v (min r g) b
        (Int.fract ((4 + (b - g) / (b - min r g) - (b - r) / (b - min r g)) / 6) + 1/3),
      hls_v (min r g) b
        (Int.fract ((4 + (b - g) / (b - min r g) - (b - r) / (b - min r g)) / 6)),
      hls_v (min r g) b
        (Int.fract ((4 + (b - g) / (b - min r g) - (b - r) / (b - min r g)) / 6) - 1/3)) =
      (r, g, b) := by
  have hD : (0 : ℚ) < b - min r g := by linarith
  have hnum : (b - g) / (b - min r g) - (b - r) / (b - min r g) =
      (r - g) / (b - min r g) := by
    rw [div_sub_div_same]
    ring_nf
  have harg : 4 + (b - g) / (b - min r g) - (b - r) / (b - min r g) =
      4 + (r - g) / (b - min r g) := by
    linarith [hnum]
  rw [harg]
  by_cases hgr : g ≤ r
  · rw [min_eq_right hgr] at hne ⊢
    have hd : (0 : ℚ) < b - g := by linarith
    have hw0 : 0 ≤ (r - g) / (b - g) := div_nonneg (by linarith) hd.le
    have hw1 : (r - g) / (b - g) < 1 := by
      rw [div_lt_one hd]
      linarith
    rw [fract_eq_self_of _ (by linarith) (by linarith)]
    simp only [Prod.mk.injEq]
    refine ⟨?_, ?_, ?_⟩
    · have e1 : (4 + (r - g) / (b - g)) / 6 + 1/3 = (r - g) / (b - g) / 6 + 1 := by
        ring
      rw [e1, ← hls_v_fract]
      have hfr1 : Int.fract ((r - g) / (b - g) / 6 + 1) = (r - g) / (b - g) / 6 := by
        have e2 : (r - g) / (b - g) / 6 + 1 = (r - g) / (b - g) / 6 + ((1 : ℤ) : ℚ) := by
          push_cast
          ring
        rw [e2, Int.fract_add_int]
        exact fract_eq_self_of _ (by linarith) (by linarith)
      rw [hfr1, hls_v_first _ _ _ (by linarith) (by linarith)]
      field_simp
      ring
    · rw [hls_v_fourth _ _ _ (by linarith) (by linarith)]
    · have e3 : (4 + (r - g) / (b - g)) / 6 - 1/3 = (2 + (r - g) / (b - g)) / 6 := by
        ring
      rw [e3, hls_v_second _ _ _ (by linarith) (by linarith)]
  · push_neg at hgr
    rw [min_eq_left hgr.le] at hne ⊢
    have hd : (0 : ℚ) < b - r := by linarith
    have hwn : (r - g) / (b - r) < 0 := div_neg_of_neg_of_pos (by linarith) hd
    have hw2 : -1 < (r - g) / (b - r) := by
      rw [lt_div_iff hd]
      linarith
    rw [fract_eq_self_of _ (by linarith) (by linarith)]
    simp only [Prod.mk.injEq]
    refine ⟨?_, ?_, ?_⟩
    · have e1 : (4 + (r - g) / (b - r)) / 6 + 1/3 = (r - g) / (b - r) / 6 + 1 := by
        ring
      rw [e1, hls_v_fourth _ _ _ (by linarith) (by linarith)]
    · rw [hls_v_third _ _ _ (by linarith) (by linarith)]
      field_simp
      ring
    · have e3 : (4 + (r - g) / (b - r)) / 6 - 1/3 = (2 + (r - g) / (b - r)) / 6 := by
        ring
      rw [e3, hls_v_second _ _ _ (by linarith) (by linarith)]

theorem hls_round_trip (r g b : ℚ) (hr0 : 0 ≤ r) (hr1 : r ≤ 1) (hg0 : 0 ≤ g)
    (hg1 : g ≤ 1) (hb0 : 0 ≤ b) (hb1 : b ≤ 1) :
    hls_to_rgb (rgb_to_hls r g b).1 (rgb_to_hls r g b).2.1 (rgb_to_hls r g b).2.2 =
      (r, g, b) := by
  by_cases heq : min r (min g b) = max r (max g b)
  · have hmax_r : max r (max g b) = r :=
      le_antisymm (heq ▸ min_le_left r (min g b)) (le_max_left _ _)
    have hmin_r : min r (min g b) = r := by rw [heq, hmax_r]
    have hg_le : g ≤ r := by
      have h1 : g ≤ max r (max g b) := le_trans (le_max_left g b) (le_max_right r _)
      rw [hmax_r] at h1
      exact h1
    have hg_ge : r ≤ g := by
      have h1 : min r (min g b) ≤ g := le_trans (min_le_right r _) (min_le_left g b)
      rw [hmin_r] at h1
      exact h1
    have hb_le : b ≤ r := by
      have h1 : b ≤ max r (max g b) := le_trans (le_max_right g b) (le_max_right r _)
      rw [hmax_r] at h1
      exact h1
    have hb_ge : r ≤ b := by
      have h1 : min r (min g b) ≤ b := le_trans (min_le_right r _) (min_le_right g b)
      rw [hmin_r] at h1
      exact h1
    have hgr : g = r := le_antisymm hg_le hg_ge
    have hbr : b = r := le_antisymm hb_le hb_ge
    rw [hgr, hbr]
    have hconv : rgb_to_hls r r r = (0, r, 0) := by
      simp only [rgb_to_hls, max_self, min_self, if_pos rfl]
      show ((0 : ℚ), (r + r) / 2, (0 : ℚ)) = (0, r, 0)
      have hhalf : (r + r) / 2 = r := by ring
      rw [hhalf]
    rw [hconv]
    simp [hls_to_rgb]
  · rcases le_or_lt g r with hgr | hgr
    · rcases le_or_lt b r with hbr | hbr
      · have hle : min g b ≤ r := le_trans (min_le_left g b) hgr
        have hne : min g b < r :=
          lt_of_le_of_ne hle (fun h => heq (by
            rw [min_eq_right hle, max_eq_left (max_le hgr hbr)]
            exact h))
        rw [rgb_to_hls_case_r r g b hgr hbr hne]
        rw [hls_to_rgb_minmax _ _ _ (le_min hg0 hb0) hne hr1]
        exact round_trip_rmax r g b hgr hbr hne
      · have hgb : g < b := lt_of_le_of_lt hgr hbr
        have hne : min r g < b := lt_of_le_of_lt (min_le_left r g) hbr
        rw [rgb_to_hls_case_b r g b hbr hgb hne]
        rw [hls_to_rgb_minmax _ _ _ (le_min hr0 hg0) hne hb1]
        exact round_trip_bmax r g b hbr hgb hne
    · rcases le_or_lt b g with hbg | hbg
      · have hne : min r b < g := lt_of_le_of_lt (min_le_left r b) hgr
        rw [rgb_to_hls_case_g r g b hgr hbg hne]
        rw [hls_to_rgb_minmax _ _ _ (le_min hr0 hb0) hne hg1]
        exact round_trip_gmax r g b hgr hbg hne
      · have hrb : r < b := lt_trans hgr hbg
        have hne : min r g < b := lt_of_le_of_lt (min_le_left r g) hrb
        rw [rgb_to_hls_case_b r g b hrb hbg hne]
        rw [hls_to_rgb_minmax _ _ _ (le_min hr0 hg0) hne hb1]
        exact round_trip_bmax r g b hrb hbg hne

theorem hls_v_between (m1 m2 hue : ℚ) (h : m1 ≤ m2) :
    m1 ≤ hls_v m1 m2 hue ∧ hls_v m1 m2 hue ≤ m2 := by
  have hf0 : 0 ≤ Int.fract hue := Int.fract_nonneg hue
  have hf1 : Int.fract hue < 1 := Int.fract_lt_one hue
  simp only [hls_v]
  split_ifs with h1 h2 h3
  · constructor
    · nlinarith [mul_nonneg (sub_nonneg.mpr h) hf0]
    · nlinarith [mul_nonneg (sub_nonneg.mpr h) (by linarith : (0:ℚ) ≤ 1 - 6 * Int.fract hue)]
  · exact ⟨h, le_refl _⟩
  · constructor
    · nlinarith [mul_nonneg (sub_nonneg.mpr h) (by linarith : (0:ℚ) ≤ 2/3 - Int.fract hue)]
    · nlinarith [mul_nonneg (sub_nonneg.mpr h)
        (by linarith : (0:ℚ) ≤ 1 - (2/3 - Int.fract hue) * 6)]
  · exact ⟨le_refl _, h⟩

theorem rgb_to_hls_diag (r : ℚ) : rgb_to_hls r r r = (0, r, 0) := by
  simp only [rgb_to_hls, max_self, min_self, if_pos rfl]
  show ((0 : ℚ), (r + r) / 2, (0 : ℚ)) = (0, r, 0)
  have hhalf : (r + r) / 2 = r := by ring
  rw [hhalf]

theorem hls_to_rgb_bounds (hq r g b : ℚ) (hr0 : 0 ≤ r) (hr1 : r ≤ 1) (hg0 : 0 ≤ g)
    (hg1 : g ≤ 1) (hb0 : 0 ≤ b) (hb1 : b ≤ 1) :
    (0 ≤ (hls_to_rgb hq (rgb_to_hls r g b).2.1 (rgb_to_hls r g b).2.2).1 ∧
        (hls_to_rgb hq (rgb_to_hls r g b).2.1 (rgb_to_hls r g b).2.2).1 ≤ 1) ∧
      (0 ≤ (hls_to_rgb hq (rgb_to_hls r g b).2.1 (rgb_to_hls r g b).2.2).2.1 ∧
        (hls_to_rgb hq (rgb_to_hls r g b).2.1 (rgb_to_hls r g b).2.2).2.1 ≤ 1) ∧
      (0 ≤ (hls_to_rgb hq (rgb_to_hls r g b).2.1 (rgb_to_hls r g b).2.2).2.2 ∧
        (hls_to_rgb hq (rgb_to_hls r g b).2.1 (rgb_to_hls r g b).2.2).2.2 ≤ 1) := by
  by_cases heq : min r (min g b) = max r (max g b)
  · have hmax_r : max r (max g b) = r :=
      le_antisymm (heq ▸ min_le_left r (min g b)) (le_max_left _ _)
    have hmin_r : min r (min g b) = r := by rw [heq, hmax_r]
    have hg_le : g ≤ r := by
      have h1 : g ≤ max r (max g b) := le_trans (le_max_left g b) (le_max_right r _)
      rw [hmax_r] at h1
      exact h1
    have hg_ge : r ≤ g := by
      have h1 : min r (min g b) ≤ g := le_trans (min_le_right r _) (min_le_left g b)
      rw [hmin_r] at h1
      exact h1
    have hb_le : b ≤ r := by
      have h1 : b ≤ max r (max g b) := le_trans (le_max_right g b) (le_max_right r _)
      rw [hmax_r] at h1
      exact h1
    have hb_ge : r ≤ b := by
      have h1 : min r (min g b) ≤ b := le_trans (min_le_right r _) (min_le_right g b)
      rw [hmin_r] at h1
      exact h1
    have hgr : g = r := le_antisymm hg_le hg_ge
    have hbr : b = r := le_antisymm hb_le hb_ge
    rw [hgr, hbr, rgb_to_hls_diag]
    simp only [hls_to_rgb, if_pos rfl]
    exact ⟨⟨hr0, hr1⟩, ⟨hr0, hr1⟩, ⟨hr0, hr1⟩⟩
  · have main : ∀ m M : ℚ, 0 ≤ m → m < M → M ≤ 1 →
        (0 ≤ hls_v m M (hq + 1/3) ∧ hls_v m M (hq + 1/3) ≤ 1) ∧
          (0 ≤ hls_v m M hq ∧ hls_v m M hq ≤ 1) ∧
          (0 ≤ hls_v m M (hq - 1/3) ∧ hls_v m M (hq - 1/3) ≤ 1) := by
      intro m M h0 hmM hM
      have h1 := hls_v_between m M (hq + 1/3) hmM.le
      have h2 := hls_v_between m M hq hmM.le
      have h3 := hls_v_between m M (hq - 1/3) hmM.le
      exact ⟨⟨by linarith [h1.1], by linarith [h1.2]⟩,
        ⟨by linarith [h2.1], by linarith [h2.2]⟩,
        ⟨by linarith [h3.1], by linarith [h3.2]⟩⟩
    rcases le_or_lt g r with hgr | hgr
    · rcases le_or_lt b r with hbr | hbr
      · have hle : min g b ≤ r := le_trans (min_le_left g b) hgr
        have hne : min g b < r :=
          lt_of_le_of_ne hle (fun h => heq (by
            rw [min_eq_right hle, max_eq_left (max_le hgr hbr)]
            exact h))
        rw [rgb_to_hls_case_r r g b hgr hbr hne]
        rw [hls_to_rgb_minmax _ _ _ (le_min hg0 hb0) hne hr1]
        exact main (min g b) r (le_min hg0 hb0) hne hr1
      · have hgb : g < b := lt_of_le_of_lt hgr hbr
        have hne : min r g < b := lt_of_le_of_lt (min_le_left r g) hbr
        rw [rgb_to_hls_case_b r g b hbr hgb hne]
        rw [hls_to_rgb_minmax _ _ _ (le_min hr0 hg0) hne hb1]
        exact main (min r g) b (le_min hr0 hg0) hne hb1
    · rcases le_or_lt b g with hbg | hbg
      · have hne : min r b < g := lt_of_le_of_lt (min_le_left r b) hgr
        rw [rgb_to_hls_case_g r g b hgr hbg hne]
        rw [hls_to_rgb_minmax _ _ _ (le_min hr0 hb0) hne hg1]
        exact main (min r b) g (le_min hr0 hb0) hne hg1
      · have hrb : r < b := lt_trans hgr hbg
        have hne : min r g < b := lt_of_le_of_lt (min_le_left r g) hrb
        rw [rgb_to_hls_case_b r g b hrb hbg hne]
        rw [hls_to_rgb_minmax _ _ _ (le_min hr0 hg0) hne hb1]
        exact main (min r g) b (le_min hr0 hg0) hne hb1

theorem pyInt_natCast (n : ℕ) : pyInt (n : ℚ) = n := by
  simp [pyInt]

theorem pyRound_natCast (n : ℕ) : pyRound (n : ℚ) = n := by
  simp [pyRound, Int.fract_natCast]

theorem clip8_eq_toNat (z : ℤ) (h : z ≤ 255) : clip8 z = z.toNat := by
  unfold clip8
  split_ifs <;> omega

theorem rgb_to_hls_h_fract (r g b : ℚ) :
    Int.fract ((rgb_to_hls r g b).1) = (rgb_to_hls r g b).1 := by
  simp only [rgb_to_hls]
  split_ifs <;> simp [Int.fract_fract]

theorem mapPixels_eq_of (f g : RGB → RGB) (img : Image)
    (h : ∀ row ∈ img.rows, ∀ p ∈ row, f p = g p) :
    mapPixels f img = mapPixels g img := by
  simp only [mapPixels, Image.mk.injEq]
  refine List.map_congr_left (fun row hrow => ?_)
  exact List.map_congr_left (fun p hp => h row hrow p hp)

theorem mapPixels_id (img : Image) : mapPixels id img = img := by
  simp [mapPixels]

theorem mapPixels_id_of (f : RGB → RGB) (img : Image)
    (h : ∀ row ∈ img.rows, ∀ p ∈ row, f p = p) : mapPixels f img = img := by
  rw [mapPixels_eq_of f id img h, mapPixels_id]

theorem mapPixels_valid (f : RGB → RGB) (img : Image) (h : img.Valid)
    (hf : ∀ p, p.Valid → (f p).Valid) : (mapPixels f img).Valid := by
  intro row hrow p hp
  simp only [mapPixels] at hrow
  obtain ⟨row0, hrow0, rfl⟩ := List.mem_map.mp hrow
  obtain ⟨q, hq, rfl⟩ := List.mem_map.mp hp
  exact hf q (h row0 hrow0 q hq)

theorem hueShiftPixel_zero (p : RGB) (hp : p.Valid) : hueShiftPixel 0 p = p := by
  obtain ⟨pr, pg, pb⟩ := p
  obtain ⟨h1, h2, h3⟩ := hp
  have hr0 : (0 : ℚ) ≤ (pr : ℚ) / 255 := by positivity
  have hr1 : (pr : ℚ) / 255 ≤ 1 := by
    rw [div_le_one (by norm_num)]
    exact_mod_cast h1
  have hg0 : (0 : ℚ) ≤ (pg : ℚ) / 255 := by positivity
  have hg1 : (pg : ℚ) / 255 ≤ 1 := by
    rw [div_le_one (by norm_num)]
    exact_mod_cast h2
  have hb0 : (0 : ℚ) ≤ (pb : ℚ) / 255 := by positivity
  have hb1 : (pb : ℚ) / 255 ≤ 1 := by
    rw [div_le_one (by norm_num)]
    exact_mod_cast h3
  simp only [hueShiftPixel, add_zero, rgb_to_hls_h_fract]
  rw [hls_round_trip _ _ _ hr0 hr1 hg0 hg1 hb0 hb1]
  have er : (pr : ℚ) / 255 * 255 = (pr : ℚ) := by field_simp
  have eg : (pg : ℚ) / 255 * 255 = (pg : ℚ) := by field_simp
  have eb : (pb : ℚ) / 255 * 255 = (pb : ℚ) := by field_simp
  simp only [er, eg, eb, pyInt_natCast]

theorem hueShiftPixel_bounds (shift : ℚ) (p : RGB) (hp : p.Valid) :
    hueShiftPixelSpec truncNonneg shift p = hueShiftPixel shift p ∧
      (hueShiftPixel shift p).Valid := by
  obtain ⟨pr, pg, pb⟩ := p
  obtain ⟨h1, h2, h3⟩ := hp
  have hr0 : (0 : ℚ) ≤ (pr : ℚ) / 255 := by positivity
  have hr1 : (pr : ℚ) / 255 ≤ 1 := by
    rw [div_le_one (by norm_num)]
    exact_mod_cast h1
  have hg0 : (0 : ℚ) ≤ (pg : ℚ) / 255 := by positivity
  have hg1 : (pg : ℚ) / 255 ≤ 1 := by
    rw [div_le_one (by norm_num)]
    exact_mod_cast h2
  have hb0 : (0 : ℚ) ≤ (pb : ℚ) / 255 := by positivity
  have hb1 : (pb : ℚ) / 255 ≤ 1 := by
    rw [div_le_one (by norm_num)]
    exact_mod_cast h3
  have hb := hls_to_rgb_bounds
    (Int.fract ((rgb_to_hls ((pr : ℚ) / 255) ((pg : ℚ) / 255) ((pb : ℚ) / 255)).1 + shift))
    ((pr : ℚ) / 255) ((pg : ℚ) / 255) ((pb : ℚ) / 255) hr0 hr1 hg0 hg1 hb0 hb1
  obtain ⟨⟨hc1l, hc1u⟩, ⟨hc2l, hc2u⟩, ⟨hc3l, hc3u⟩⟩ := hb
  have hf1 : (⌊(hls_to_rgb
      (Int.fract ((rgb_to_hls ((pr : ℚ) / 255) ((pg : ℚ) / 255) ((pb : ℚ) / 255)).1 + shift))
      (rgb_to_hls ((pr : ℚ) / 255) ((pg : ℚ) / 255) ((pb : ℚ) / 255)).2.1
      (rgb_to_hls ((pr : ℚ) / 255) ((pg : ℚ) / 255) ((pb : ℚ) / 255)).2.2).1 * 255⌋ : ℤ)
      ≤ 255 := by
    have hle := Int.floor_le_floor (α := ℚ) (by nlinarith : (hls_to_rgb
      (Int.fract ((rgb_to_hls ((pr : ℚ) / 255) ((pg : ℚ) / 255) ((pb : ℚ) / 255)).1 + shift))
      (rgb_to_hls ((pr : ℚ) / 255) ((pg : ℚ) / 255) ((pb : ℚ) / 255)).2.1
      (rgb_to_hls ((pr : ℚ) / 255) ((pg : ℚ) / 255) ((pb : ℚ) / 255)).2.2).1 * 255 ≤ (255 : ℚ))
    norm_num at hle
    exact hle
  have hf2 : (⌊(hls_to_rgb
      (Int.fract ((rgb_to_hls ((pr : ℚ) / 255) ((pg : ℚ) / 255) ((pb : ℚ) / 255)).1 + shift))
      (rgb_to_hls ((pr : ℚ) / 255) ((pg : ℚ) / 255) ((pb : ℚ) / 255)).2.1
      (rgb_to_hls ((pr : ℚ) / 255) ((pg : ℚ) / 255) ((pb : ℚ) / 255)).2.2).2.1 * 255⌋ : ℤ)
      ≤ 255 := by
    have hle := Int.floor_le_floor (α := ℚ) (by nlinarith : (hls_to_rgb
      (Int.fract ((rgb_to_hls ((pr : ℚ) / 255) ((pg : ℚ) / 255) ((pb : ℚ) / 255)).1 + shift))
      (rgb_to_hls ((pr : ℚ) / 255) ((pg : ℚ) / 255) ((pb : ℚ) / 255)).2.1
      (rgb_to_hls ((pr : ℚ) / 255) ((pg : ℚ) / 255) ((pb : ℚ) / 255)).2.2).2.1 * 255 ≤ (255 : ℚ))
    norm_num at hle
    exact hle
  have hf3 : (⌊(hls_to_rgb
      (Int.fract ((rgb_to_hls ((pr : ℚ) / 255) ((pg : ℚ) / 255) ((pb : ℚ) / 255)).1 + shift))
      (rgb_to_hls ((pr : ℚ) / 255) ((pg : ℚ) / 255) ((pb : ℚ) / 255)).2.1
      (rgb_to_hls ((pr : ℚ) / 255) ((pg : ℚ) / 255) ((pb : ℚ) / 255)).2.2).2.2 * 255⌋ : ℤ)
      ≤ 255 := by
    have hle := Int.floor_le_floor (α := ℚ) (by nlinarith : (hls_to_rgb
      (Int.fract ((rgb_to_hls ((pr : ℚ) / 255) ((pg : ℚ) / 255) ((pb : ℚ) / 255)).1 + shift))
      (rgb_to_hls ((pr : ℚ) / 255) ((pg : ℚ) / 255) ((pb : ℚ) / 255)).2.1
      (rgb_to_hls ((pr : ℚ) / 255) ((pg : ℚ) / 255) ((pb : ℚ) / 255)).2.2).2.2 * 255 ≤ (255 : ℚ))
    norm_num at hle
    exact hle
  constructor
  · simp only [hueShiftPixelSpec, hueShiftPixel, truncNonneg, RGB.mk.injEq, pyInt]
    exact ⟨clip8_eq_toNat _ hf1, clip8_eq_toNat _ hf2, clip8_eq_toNat _ hf3⟩
  · simp only [hueShiftPixel, RGB.Valid, pyInt]
    omega

theorem hueShiftPixel_half (p : RGB) : hueShiftPixel (1/2) p = hueShiftPixel (-(1/2)) p := by
  have key : ∀ x : ℚ, Int.fract (x + 1/2) = Int.fract (x + -(1/2)) := by
    intro x
    have e : x + 1/2 = x + -(1/2) + ((1 : ℤ) : ℚ) := by
      push_cast
      ring
    rw [e, Int.fract_add_int]
  simp only [hueShiftPixel, key]

theorem blendImage_one (im1 im2 : Image) : blendImage im1 im2 1 = im2 := by
  unfold blendImage
  rw [if_neg (by norm_num), if_pos rfl]

theorem enhance_one (img : Image) : enhance img 1 1 1 = img := by
  unfold enhance enhanceColor enhanceBrightness enhanceContrast
  rw [blendImage_one, blendImage_one, blendImage_one]

theorem applyEffect_none (img : Image) : applyEffect img "None" = img := rfl

theorem balancePoint_one (i : ℕ) (h : i ≤ 255) : balancePoint 1 i = i := by
  unfold balancePoint
  rw [mul_one, min_eq_right (by exact_mod_cast h : (i : ℚ) ≤ 255)]
  rw [pyRound_natCast, clip8_eq_toNat _ (by exact_mod_cast h)]
  simp

theorem adjust_color_balance_one (img : Image) (h : img.Valid) :
    adjust_color_balance img 1 1 1 = img := by
  unfold adjust_color_balance
  apply mapPixels_id_of
  intro row hrow p hp
  obtain ⟨pr, pg, pb⟩ := p
  obtain ⟨h1, h2, h3⟩ := h row hrow _ hp
  rw [balancePoint_one pr h1, balancePoint_one pg h2, balancePoint_one pb h3]

/-! ## Claim theorems -/

/-- **C1**: the apply-edits pipeline at its neutral parameters — saturation,
brightness, contrast 1.0, effect `"None"`, hue shift 0, all channel scales 1.0 —
returns the input image pixel-identical, and each component is individually an
identity at its neutral parameters: `enhance img 1 1 1 = img`,
`applyEffect img "None" = img`, `adjust_hue img 0 = img`,
`adjust_color_balance img 1 1 1 = img`, all pixel-exact (for any decoded image,
i.e. channels in `[0,255]`). -/
theorem c1_neutral_pipeline_identity (img : Image) (h : img.Valid) :
    apply_edits img 1 1 1 "None" 0 1 1 1 = img ∧
      enhance img 1 1 1 = img ∧
      applyEffect img "None" = img ∧
      adjust_hue img 0 = img ∧
      adjust_color_balance img 1 1 1 = img := by
  have hhue : adjust_hue img 0 = img :=
    mapPixels_id_of _ img (fun row hrow p hp => hueShiftPixel_zero p (h row hrow p hp))
  have hbal : adjust_color_balance img 1 1 1 = img := adjust_color_balance_one img h
  have heff : applyEffect img "None" = img := applyEffect_none img
  have henh : enhance img 1 1 1 = img := enhance_one img
  refine ⟨?_, henh, heff, hhue, hbal⟩
  simp only [apply_edits]
  rw [henh, heff, if_neg (by simp), hbal]

/-- Witness for C1 at a concrete 1×1 image. -/
theorem c1_neutral_pipeline_identity_witness :
    (img1x1 ⟨10, 20, 30⟩).Valid ∧
      (apply_edits (img1x1 ⟨10, 20, 30⟩) 1 1 1 "None" 0 1 1 1 = img1x1 ⟨10, 20, 30⟩ ∧
        enhance (img1x1 ⟨10, 20, 30⟩) 1 1 1 = img1x1 ⟨10, 20, 30⟩ ∧
        applyEffect (img1x1 ⟨10, 20, 30⟩) "None" = img1x1 ⟨10, 20, 30⟩ ∧
        adjust_hue (img1x1 ⟨10, 20, 30⟩) 0 = img1x1 ⟨10, 20, 30⟩ ∧
        adjust_color_balance (img1x1 ⟨10, 20, 30⟩) 1 1 1 = img1x1 ⟨10, 20, 30⟩) :=
  ⟨by decide, c1_neutral_pipeline_identity _ (by decide)⟩

/-- **C7**: hue shift is circular — `adjust_hue img (1/2)` and
`adjust_hue img (-(1/2))` are in fact pixel-identical, hence agree within the
claimed ±1 per-channel tolerance on every pixel. -/
theorem c7_hue_shift_circular (img : Image) :
    adjust_hue img (1/2) = adjust_hue img (-(1/2)) ∧
      ∀ x y : ℕ,
        ((((adjust_hue img (1/2)).pix x y).r : ℤ) -
            (((adjust_hue img (-(1/2))).pix x y).r : ℤ)).natAbs ≤ 1 ∧
        ((((adjust_hue img (1/2)).pix x y).g : ℤ) -
            (((adjust_hue img (-(1/2))).pix x y).g : ℤ)).natAbs ≤ 1 ∧
        ((((adjust_hue img (1/2)).pix x y).b : ℤ) -
            (((adjust_hue img (-(1/2))).pix x y).b : ℤ)).natAbs ≤ 1 := by
  have heq : adjust_hue img (1/2) = adjust_hue img (-(1/2)) :=
    mapPixels_eq_of _ _ img (fun row _ p _ => hueShiftPixel_half p)
  refine ⟨heq, fun x y => ?_⟩
  rw [heq]
  simp

/-- **C4** (counterexample): the claim says the hue shifter rounds each output
channel to the nearest integer; the code truncates.  On the 1×1 pure-red image
with shift `3/100` the exact green channel is `45.9`: the code produces 45
where round-to-nearest produces 46. -/
theorem c4_counterexample_truncation_not_rounding :
    adjust_hue (img1x1 ⟨255, 0, 0⟩) (3/100) = img1x1 ⟨255, 45, 0⟩ ∧
      mapPixels (hueShiftPixelSpec roundNearest (3/100)) (img1x1 ⟨255, 0, 0⟩) =
        img1x1 ⟨255, 46, 0⟩ ∧
      adjust_hue (img1x1 ⟨255, 0, 0⟩) (3/100) ≠
        mapPixels (hueShiftPixelSpec roundNearest (3/100)) (img1x1 ⟨255, 0, 0⟩) := by
  have h1 : hueShiftPixel (3/100) ⟨255, 0, 0⟩ = ⟨255, 45, 0⟩ := by
    norm_num [hueShiftPixel, rgb_to_hls, hls_to_rgb, hls_v, pyInt, Int.fract,
      min_def, max_def]
    decide
  have h2 : hueShiftPixelSpec roundNearest (3/100) ⟨255, 0, 0⟩ = ⟨255, 46, 0⟩ := by
    norm_num [hueShiftPixelSpec, roundNearest, clip8, rgb_to_hls, hls_to_rgb, hls_v,
      Int.fract, min_def, max_def]
    decide
  refine ⟨?_, ?_, ?_⟩
  · simp [adjust_hue, mapPixels, img1x1, h1]
  · simp [mapPixels, img1x1, h2]
  · simp [adjust_hue, mapPixels, img1x1, h1, h2]

/-- **C4** (amended): `adjust_hue` computes, for every pixel of a decoded image
independently: normalise RGB to `0–1`, convert to HLS, add the shift to hue and
wrap modulo 1.0, convert back to RGB, then produce each output channel by
multiplying by 255 and **truncating toward zero** (not rounding), the result
clamped to `[0,255]` (the clamp is vacuous: the truncated values already lie in
`[0,255]`, as the validity conjunct shows). -/
theorem c4_amended_hue_shift_truncates (img : Image) (shift : ℚ) (h : img.Valid) :
    adjust_hue img shift = mapPixels (hueShiftPixelSpec truncNonneg shift) img ∧
      (adjust_hue img shift).Valid := by
  constructor
  · exact (mapPixels_eq_of _ _ img
      (fun row hrow p hp => ((hueShiftPixel_bounds shift p (h row hrow p hp)).1).symm))
  · exact mapPixels_valid _ img h (fun p hp => (hueShiftPixel_bounds shift p hp).2)

/-- Witness for the amended C4 at a concrete 1×1 image and shift. -/
theorem c4_amended_hue_shift_truncates_witness :
    (img1x1 ⟨255, 0, 0⟩).Valid ∧
      (adjust_hue (img1x1 ⟨255, 0, 0⟩) (3/100) =
          mapPixels (hueShiftPixelSpec truncNonneg (3/100)) (img1x1 ⟨255, 0, 0⟩) ∧
        (adjust_hue (img1x1 ⟨255, 0, 0⟩) (3/100)).Valid) :=
  ⟨by decide, c4_amended_hue_shift_truncates _ _ (by decide)⟩

/-- **C2** (code bug): the sepia palette loop `for i in range(255)` writes
entries 0..254 only, so luminance level 255 falls through to the
zero-initialised palette entry: a pure white pixel (luminance 255) maps to
black `(0,0,0)` instead of the claimed `(240,200,145)`.  Levels 0..254 do
follow the claimed `(i·240/255, i·200/255, i·145/255)` lookup. -/
theorem c2_sepia_level255_maps_to_black :
    applyEffect (img1x1 ⟨255, 255, 255⟩) "Sepia" = img1x1 ⟨0, 0, 0⟩ ∧
      lum ⟨255, 255, 255⟩ = 255 ∧
      sepiaSpecLookup 255 = ⟨240, 200, 145⟩ ∧
      sepiaLookup 255 ≠ sepiaSpecLookup 255 ∧
      ∀ i : Fin 255, sepiaLookup i = sepiaSpecLookup i := by
  refine ⟨by decide, by decide, by decide, by decide, fun i => ?_⟩
  simp [sepiaLookup, sepiaSpecLookup, i.isLt]

/-- **C6**: every output channel of `adjust_color_balance` lies in `[0,255]`
(the output image is `Valid` for any input and any scales), and whenever
`scale · value` exceeds 255 the corresponding lookup-table entry is exactly
255 — the value saturates, never wraps. -/
theorem c6_balance_clamps_to_255 (img : Image) (rs gs bs : ℚ) :
    (adjust_color_balance img rs gs bs).Valid ∧
      ∀ (i : ℕ) (s : ℚ), 255 < (i : ℚ) * s → balancePoint s i = 255 := by
  constructor
  · intro row hrow p hp
    simp only [adjust_color_balance, mapPixels] at hrow
    obtain ⟨row0, _, rfl⟩ := List.mem_map.mp hrow
    obtain ⟨q, _, rfl⟩ := List.mem_map.mp hp
    refine ⟨?_, ?_, ?_⟩ <;> · simp only [balancePoint, clip8]; split_ifs <;> omega
  · intro i s h
    rw [balancePoint, min_eq_left h.le]
    norm_num [pyRound, Int.fract, clip8]

/-- Witness for C6: a red channel value 200 scaled by 2 saturates at 255, and
the whole output of a concrete call is within range. -/
theorem c6_balance_clamps_to_255_witness :
    (adjust_color_balance (img1x1 ⟨200, 0, 0⟩) 2 1 1).Valid ∧
      (255 < (200 : ℚ) * 2 ∧ balancePoint 2 200 = 255) :=
  ⟨(c6_balance_clamps_to_255 (img1x1 ⟨200, 0, 0⟩) 2 1 1).1, by norm_num,
    (c6_balance_clamps_to_255 (img1x1 ⟨200, 0, 0⟩) 2 1 1).2 200 2 (by norm_num)⟩

/-- **C8**: an unrecognized effect string leaves the image exactly as
`effect = "None"` does (unchanged), and an unrecognized caption position is
rendered exactly as the `"Bottom"` placement; neither raises an error (both
functions are total and fall through to their defaults). -/
theorem c8_unrecognized_enum_fallbacks (img : Image) (effect : String)
    (he : effect ∉ (["Black & White", "Invert", "Sepia"] : List String))
    (text : String) (tw th : ℕ) (color : RGB) (pos : String)
    (hp : pyLower pos ∉ (["bottom", "top", "left", "right"] : List String)) :
    applyEffect img effect = img ∧
      applyEffect img effect = applyEffect img "None" ∧
      add_lower_third img text tw th color pos =
        add_lower_third img text tw th color "Bottom" := by
  have h1 : effect ≠ "Black & White" := fun h => he (by simp [h])
  have h2 : effect ≠ "Invert" := fun h => he (by simp [h])
  have h3 : effect ≠ "Sepia" := fun h => he (by simp [h])
  have heff : applyEffect img effect = img := by
    simp only [applyEffect, if_neg h1, if_neg h2, if_neg h3]
  refine ⟨heff, by rw [heff, applyEffect_none], ?_⟩
  have k1 : pyLower pos ≠ "bottom" := fun h => hp (by simp [h])
  have k2 : pyLower pos ≠ "top" := fun h => hp (by simp [h])
  have k3 : pyLower pos ≠ "left" := fun h => hp (by simp [h])
  have k4 : pyLower pos ≠ "right" := fun h => hp (by simp [h])
  simp only [add_lower_third, if_neg k1, if_neg k2, if_neg k3, if_neg k4,
    if_pos (show pyLower "Bottom" = "bottom" from by decide)]

/-- Witness for C8 at concrete unrecognized enum values. -/
theorem c8_unrecognized_enum_fallbacks_witness :
    ("Posterize" ∉ (["Black & White", "Invert", "Sepia"] : List String)) ∧
      (pyLower "Center" ∉ (["bottom", "top", "left", "right"] : List String)) ∧
      (applyEffect white8 "Posterize" = white8 ∧
        applyEffect white8 "Posterize" = applyEffect white8 "None" ∧
        add_lower_third white8 "hi" 3 2 ⟨9, 9, 9⟩ "Center" =
          add_lower_third white8 "hi" 3 2 ⟨9, 9, 9⟩ "Bottom") :=
  ⟨by decide, by decide,
    c8_unrecognized_enum_fallbacks white8 "Posterize" (by decide) "hi" 3 2 ⟨9, 9, 9⟩
      "Center" (by decide)⟩

/-! ## Dimension preservation -/

theorem mapPixels_height (f : RGB → RGB) (img : Image) :
    (mapPixels f img).height = img.height := by
  simp [mapPixels, Image.height]

theorem mapPixels_width (f : RGB → RGB) (img : Image) :
    (mapPixels f img).width = img.width := by
  simp only [mapPixels, Image.width, List.head?_map]
  cases img.rows.head? <;> simp

theorem blendImage_map_height (g : RGB → RGB) (img : Image) (a : ℚ) :
    (blendImage (mapPixels g img) img a).height = img.height := by
  unfold blendImage
  split_ifs
  · exact mapPixels_height g img
  · rfl
  · simp [zipPixels, mapPixels, Image.height]

theorem blendImage_map_width (g : RGB → RGB) (img : Image) (a : ℚ) :
    (blendImage (mapPixels g img) img a).width = img.width := by
  unfold blendImage
  split_ifs
  · exact mapPixels_width g img
  · rfl
  · cases hr : img.rows with
    | nil => simp [zipPixels, mapPixels, Image.width, hr]
    | cons r rs => simp [zipPixels, mapPixels, Image.width, hr]

theorem enhance_dims (img : Image) (s b c : ℚ) :
    (enhance img s b c).width = img.width ∧ (enhance img s b c).height = img.height := by
  unfold enhance enhanceContrast enhanceBrightness enhanceColor grayRGB
  constructor
  · rw [blendImage_map_width, blendImage_map_width, blendImage_map_width]
  · rw [blendImage_map_height, blendImage_map_height, blendImage_map_height]

theorem applyEffect_dims (img : Image) (e : String) :
    (applyEffect img e).width = img.width ∧ (applyEffect img e).height = img.height := by
  unfold applyEffect grayRGB invertImage sepiaImage
  split_ifs <;>
    first
      | exact ⟨mapPixels_width _ _, mapPixels_height _ _⟩
      | exact ⟨rfl, rfl⟩

theorem adjust_hue_dims (img : Image) (shift : ℚ) :
    (adjust_hue img shift).width = img.width ∧
      (adjust_hue img shift).height = img.height :=
  ⟨mapPixels_width _ _, mapPixels_height _ _⟩

theorem adjust_color_balance_dims (img : Image) (rs gs bs : ℚ) :
    (adjust_color_balance img rs gs bs).width = img.width ∧
      (adjust_color_balance img rs gs bs).height = img.height :=
  ⟨mapPixels_width _ _, mapPixels_height _ _⟩

theorem apply_edits_dims (img : Image) (s b c : ℚ) (e : String) (hue rs gs bs : ℚ) :
    (apply_edits img s b c e hue rs gs bs).width = img.width ∧
      (apply_edits img s b c e hue rs gs bs).height = img.height := by
  simp only [apply_edits]
  by_cases hh : hue ≠ 0
  · rw [if_pos hh]
    constructor
    · rw [(adjust_color_balance_dims _ _ _ _).1, (adjust_hue_dims _ _).1,
        (applyEffect_dims _ _).1, (enhance_dims _ _ _ _).1]
    · rw [(adjust_color_balance_dims _ _ _ _).2, (adjust_hue_dims _ _).2,
        (applyEffect_dims _ _).2, (enhance_dims _ _ _ _).2]
  · rw [if_neg hh]
    constructor
    · rw [(adjust_color_balance_dims _ _ _ _).1, (applyEffect_dims _ _).1,
        (enhance_dims _ _ _ _).1]
    · rw [(adjust_color_balance_dims _ _ _ _).2, (applyEffect_dims _ _).2,
        (enhance_dims _ _ _ _).2]

theorem pasteImage_dims (base : Image) (ov : RGBAImage) (pos : ℤ × ℤ) :
    (pasteImage base ov pos).width = base.width ∧
      (pasteImage base ov pos).height = base.height := by
  constructor
  · cases hr : base.rows with
    | nil => simp [pasteImage, Image.width, hr]
    | cons r rs => simp [pasteImage, Image.width, hr]
  · simp [pasteImage, Image.height]

theorem add_logo_dims (img : Image) (logo : Option RGBAImage) (scale : ℚ)
    (pos : Option (ℤ × ℤ)) :
    (add_logo img logo scale pos).width = img.width ∧
      (add_logo img logo scale pos).height = img.height := by
  unfold add_logo
  match logo, pos with
  | some l, some p => exact pasteImage_dims _ _ _
  | some l, none => exact ⟨rfl, rfl⟩
  | none, some p => exact ⟨rfl, rfl⟩
  | none, none => exact ⟨rfl, rfl⟩

theorem drawText_dims (img : Image) (xy : ℤ × ℤ) (tw th : ℕ) (c : RGB) :
    (drawText img xy tw th c).width = img.width ∧
      (drawText img xy tw th c).height = img.height := by
  constructor
  · cases hr : img.rows with
    | nil => simp [drawText, Image.width, hr]
    | cons r rs => simp [drawText, Image.width, hr]
  · simp [drawText, Image.height]

theorem add_lower_third_dims (img : Image) (text : String) (tw th : ℕ) (c : RGB)
    (pos : String) :
    (add_lower_third img text tw th c pos).width = img.width ∧
      (add_lower_third img text tw th c pos).height = img.height := by
  simp only [add_lower_third]
  split_ifs <;>
    first
      | exact ⟨rfl, rfl⟩
      | exact drawText_dims _ _ _ _ _

/-- **C10**: every pipeline stage preserves the base image's dimensions:
`apply_edits`, `adjust_hue`, `adjust_color_balance`, `add_logo` and
`add_lower_third` all return an image with the width and height of the image
they were given, for all parameter values, logos and captions. -/
theorem c10_stages_preserve_dimensions (img : Image) (s b c : ℚ) (e : String)
    (hue rs gs bs : ℚ) (logo : Option RGBAImage) (lscale : ℚ)
    (lpos : Option (ℤ × ℤ)) (text : String) (tw th : ℕ) (color : RGB)
    (cpos : String) :
    ((apply_edits img s b c e hue rs gs bs).width = img.width ∧
        (apply_edits img s b c e hue rs gs bs).height = img.height) ∧
      ((adjust_hue img hue).width = img.width ∧
        (adjust_hue img hue).height = img.height) ∧
      ((adjust_color_balance img rs gs bs).width = img.width ∧
        (adjust_color_balance img rs gs bs).height = img.height) ∧
      ((add_logo img logo lscale lpos).width = img.width ∧
        (add_logo img logo lscale lpos).height = img.height) ∧
      ((add_lower_third img text tw th color cpos).width = img.width ∧
        (add_lower_third img text tw th color cpos).height = img.height) :=
  ⟨apply_edits_dims img s b c e hue rs gs bs, adjust_hue_dims img hue,
    adjust_color_balance_dims img rs gs bs, add_logo_dims img logo lscale lpos,
    add_lower_third_dims img text tw th color cpos⟩

/-- **C9** (counterexample): the resized logo's aspect ratio is not exactly the
source ratio: a 3×2 logo on a base of width 100 with scale 1/10 resizes to
10×6 (the height is truncated), and 6/10 ≠ 2/3. -/
theorem c9_counterexample_ratio_truncated :
    logoResizedSize 100 3 2 (1/10) = (10, 6) ∧
      ((logoResizedSize 100 3 2 (1/10)).2 : ℚ) / ((logoResizedSize 100 3 2 (1/10)).1 : ℚ) ≠
        (2 : ℚ) / 3 := by
  have h : logoResizedSize 100 3 2 (1/10) = (10, 6) := by
    norm_num [logoResizedSize, pyInt, Prod.ext_iff, Int.toNat_ofNat]
    refine ⟨by decide, ?_⟩
    norm_num [show Int.toNat 10 = 10 from rfl]
    decide
  refine ⟨h, ?_⟩
  rw [h]
  norm_num

/-- **C9** (amended): the resized height is `⌊w·H/W⌋` for resized width `w`, so
the resized ratio agrees with the source ratio up to the truncation error:
whenever the source width and the resized width are positive,
`|h/w − H/W| < 1/w` — the two dimensions are never scaled independently. -/
theorem c9_amended_aspect_ratio_within_truncation (baseW logoW logoH : ℕ)
    (scale : ℚ) (hW : 0 < logoW)
    (hw : 0 < (logoResizedSize baseW logoW logoH scale).1) :
    |((logoResizedSize baseW logoW logoH scale).2 : ℚ) /
          ((logoResizedSize baseW logoW logoH scale).1 : ℚ) -
        (logoH : ℚ) / (logoW : ℚ)| <
      1 / ((logoResizedSize baseW logoW logoH scale).1 : ℚ) := by
  simp only [logoResizedSize] at hw ⊢
  set w : ℕ := pyInt ((baseW : ℚ) * scale) with hwdef
  have hw' : (0 : ℚ) < (w : ℚ) := by exact_mod_cast hw
  have hW' : (0 : ℚ) < (logoW : ℚ) := by exact_mod_cast hW
  set q : ℚ := (w : ℚ) * (logoH : ℚ) / (logoW : ℚ) with hqdef
  have hq0 : 0 ≤ q := by positivity
  have hcast : ((pyInt q : ℕ) : ℚ) = (⌊q⌋ : ℚ) := by
    have h0 : 0 ≤ ⌊q⌋ := Int.floor_nonneg.mpr hq0
    rw [pyInt]
    exact_mod_cast Int.toNat_of_nonneg h0
  have hBq : (logoH : ℚ) / (logoW : ℚ) = q / (w : ℚ) := by
    rw [hqdef]
    field_simp
    ring
  have h1 : (⌊q⌋ : ℚ) ≤ q := Int.floor_le q
  have h2 : q - 1 < (⌊q⌋ : ℚ) := Int.sub_one_lt_floor q
  have key : |(⌊q⌋ : ℚ) - q| < 1 := by
    rw [abs_lt]
    constructor <;> linarith
  calc |((pyInt q : ℕ) : ℚ) / (w : ℚ) - (logoH : ℚ) / (logoW : ℚ)|
      = |(⌊q⌋ : ℚ) - q| / (w : ℚ) := by
        rw [hcast, hBq, div_sub_div_same, abs_div, abs_of_pos hw']
    _ < 1 / (w : ℚ) := by
        rw [div_lt_div_iff hw' hw']
        nlinarith

/-- Witness for the amended C9 at the concrete truncating instance. -/
theorem c9_amended_aspect_ratio_witness :
    0 < 3 ∧ 0 < (logoResizedSize 100 3 2 (1/10)).1 ∧
      |((logoResizedSize 100 3 2 (1/10)).2 : ℚ) /
            ((logoResizedSize 100 3 2 (1/10)).1 : ℚ) -
          (2 : ℚ) / (3 : ℚ)| <
        1 / ((logoResizedSize 100 3 2 (1/10)).1 : ℚ) :=
  ⟨by norm_num, by norm_num [logoResizedSize, pyInt],
    c9_amended_aspect_ratio_within_truncation 100 3 2 (1/10) (by norm_num)
      (by norm_num [logoResizedSize, pyInt])⟩

/-- **C3** (failing behaviour): a 2000-wide export is previewed at width 1000;
a drag position (100,50) read off the preview canvas reaches `process_batch`
unchanged (`exportLogoPos` is the identity, and `process_batch` hands it to
`add_logo` as-is), whereas the claimed unit conversion `specScaledDragPos`
yields (200,100).  `add_logo` pastes at the given offset, so different offsets
give different exports (shown on a concrete image). -/
theorem c3_drag_offset_not_rescaled :
    previewSize 2000 1200 = (1000, 600) ∧
      exportLogoPos 100 50 = (100, 50) ∧
      specScaledDragPos (100, 50) 2000 1000 = (200, 100) ∧
      exportLogoPos 100 50 ≠ specScaledDragPos (100, 50) 2000 1000 ∧
      process_batch [some white8] 1 1 1 "None" 0 1 1 1 (some blueLogo4) (1/2)
          (some (exportLogoPos 100 50)) "" 0 0 ⟨0, 0, 0⟩ "Bottom" =
        .ok [("edited_1.jpg",
          add_logo (apply_edits white8 1 1 1 "None" 0 1 1 1) (some blueLogo4) (1/2)
            (some (100, 50)))] ∧
      add_logo white8 (some blueLogo4) (1/2) (some (1, 1)) ≠
        add_logo white8 (some blueLogo4) (1/2) (some (2, 2)) := by
  refine ⟨?_, rfl, by decide, by decide, rfl, ?_⟩
  · norm_num [previewSize, pyInt, Prod.ext_iff]
    exact ⟨by decide, by decide⟩
  · have h1 : white8.width = 8 := by decide
    have h2 : blueLogo4.width = 4 := by decide
    have h3 : blueLogo4.height = 4 := by decide
    have hsz : logoResizedSize 8 4 4 (1/2) = (4, 4) := by
      norm_num [logoResizedSize, pyInt, Prod.ext_iff]
      norm_num [show Int.toNat 4 = 4 from rfl]
    simp only [add_logo, h1, h2, h3, hsz]
    decide

theorem batchLoop_error_of_bad_file (saturation brightness contrast : ℚ)
    (effect : String) (hue_shift r_scale g_scale b_scale : ℚ)
    (logo_file : Option RGBAImage) (logo_scale : ℚ) (logo_pos : Option (ℤ × ℤ))
    (lower_text : String) (text_w text_h : ℕ) (font_color : RGB)
    (lower_pos : String) :
    ∀ (files : List (Option Image)) (i : ℕ), none ∈ files →
      batchLoop saturation brightness contrast effect hue_shift r_scale g_scale
          b_scale logo_file logo_scale logo_pos lower_text text_w text_h
          font_color lower_pos files i = .error () := by
  intro files
  induction files with
  | nil => intro i h; cases h
  | cons f rest ih =>
    intro i h
    rcases List.mem_cons.mp h with hf | hrest
    · rw [← hf]
      rfl
    · cases f with
      | none => rfl
      | some img =>
        simp only [batchLoop, decodeFile, bind, Except.bind, ih (i + 1) hrest]

/-- **C5** (counterexample): a batch of one good image followed by one
undecodable file produces no archive at all — `process_batch` fails and the
entry already produced for the good image is discarded — while the same batch
without the bad file yields that entry. -/
theorem c5_counterexample_bad_file_discards_outputs :
    process_batch [some (img1x1 ⟨9, 9, 9⟩), none] 1 1 1 "None" 0 1 1 1 none 1 none
        "" 0 0 ⟨255, 255, 255⟩ "Bottom" = .error () ∧
      process_batch [some (img1x1 ⟨9, 9, 9⟩)] 1 1 1 "None" 0 1 1 1 none 1 none
          "" 0 0 ⟨255, 255, 255⟩ "Bottom" =
        .ok [("edited_1.jpg", apply_edits (img1x1 ⟨9, 9, 9⟩) 1 1 1 "None" 0 1 1 1)] :=
  ⟨rfl, rfl⟩

/-- **C5** (amended): per-item failures are not isolated: whenever any file of
the batch is undecodable, `process_batch` raises out of the zip-writing block
and returns no archive — every output already produced for the other images is
discarded. -/
theorem c5_amended_bad_file_aborts_batch (files : List (Option Image))
    (saturation brightness contrast : ℚ) (effect : String)
    (hue_shift r_scale g_scale b_scale : ℚ) (logo_file : Option RGBAImage)
    (logo_scale : ℚ) (logo_pos : Option (ℤ × ℤ)) (lower_text : String)
    (text_w text_h : ℕ) (font_color : RGB) (lower_pos : String)
    (h : none ∈ files) :
    process_batch files saturation brightness contrast effect hue_shift r_scale
        g_scale b_scale logo_file logo_scale logo_pos lower_text text_w text_h
        font_color lower_pos = .error () :=
  batchLoop_error_of_bad_file saturation brightness contrast effect hue_shift
    r_scale g_scale b_scale logo_file logo_scale logo_pos lower_text text_w
    text_h font_color lower_pos files 1 h

/-- Witness for the amended C5 at a concrete two-file batch. -/
theorem c5_amended_bad_file_aborts_batch_witness :
    none ∈ [some (img1x1 ⟨9, 9, 9⟩), none] ∧
      process_batch [some (img1x1 ⟨9, 9, 9⟩), none] 1 1 1 "None" 0 1 1 1 none 1
          none "" 0 0 ⟨255, 255, 255⟩ "Bottom" = .error () :=
  ⟨by decide,
    c5_amended_bad_file_aborts_batch [some (img1x1 ⟨9, 9, 9⟩), none] 1 1 1 "None"
      0 1 1 1 none 1 none "" 0 0 ⟨255, 255, 255⟩ "Bottom" (by decide)⟩
